import Mathlib

/-!
Verification of the inflation-expectations dashboard's data/curve pipeline
(`streamlit_app.py`) against its specification.

The UI framework, the charting library and the spreadsheet I/O library are
external collaborators (black boxes per the spec); the development below
embeds the repository's own logic: dataset preparation (`load_data`'s
processing steps), the synthetic sample generator (`load_sample_data`),
quarter formatting (`format_quarter`), the global value range
(`get_global_y_range`), curve extraction (`prepare_curve_data`), the
comparison-chart construction (`create_comparison_chart`) and the CSV
export (`download_data_as_csv`).

Numbers are embedded as exact rationals (the app rounds everything to three
decimals on load, so all values of interest are 3-decimal rationals); missing
cells (pandas NaN) are `Option.none`; operations that can raise in Python
return `Option`.
-/

namespace InflationApp

/-- A calendar date (the app works at quarter granularity). -/
structure Date where
  year : ℕ
  month : ℕ
  day : ℕ
deriving DecidableEq

/-- One row of an Observation Table: the `Time` cell plus the value cells,
positionally aligned with the table's `valueCols`. A missing value (NaN in
pandas) is `none`. -/
structure Row where
  time : Date
  cells : List (Option ℚ)
deriving DecidableEq

/-- An Observation Table: the loaded DataFrame. `valueCols` are the column
names other than `Time`, in column order. -/
structure Table where
  valueCols : List String
  rows : List Row
deriving DecidableEq

/-- Model of Python's `col.startswith('pi_')`. -/
def startswith_pi (c : String) : Bool :=
  "pi_".data.isPrefixOf c.data

/-- The horizon columns: `[col for col in df.columns if col.startswith('pi_')]`. -/
def Table.horizon_cols (df : Table) : List String :=
  df.valueCols.filter startswith_pi

/-- Cell lookup `row[col]` for a value column of the table. -/
def Table.cell (df : Table) (r : Row) (c : String) : Option ℚ :=
  r.cells.getD (df.valueCols.indexOf c) none

/-- `df[col].dropna().tolist()`: the present values of one column, in row order. -/
def Table.columnValues (df : Table) (c : String) : List ℚ :=
  df.rows.filterMap (fun r => df.cell r c)

/-- Splitting a character list at every occurrence of `sep`
(model of Python's `str.split`). -/
def splitOnChar (sep : Char) : List Char → List (List Char)
  | [] => [[]]
  | c :: cs =>
    match splitOnChar sep cs with
    | [] => [[]]
    | g :: gs => if c = sep then [] :: g :: gs else (c :: g) :: gs

/-- Decimal value of a digit string (models Python's `int` where it succeeds). -/
def digitsToVal (l : List Char) : ℕ :=
  l.foldl (fun a c => 10 * a + (c.toNat - 48)) 0

/-- Horizon length parsed from a column name, `int(col.split('_')[1][:-1])`:
for example `"pi_12q"` gives `12`. Defined on the well-formed `pi_<N>q`
names, where Python's `int` succeeds. -/
def horizon_of_col (c : String) : ℕ :=
  digitsToVal (((splitOnChar '_' c.data).getD 1 []).dropLast)

/-- `format_quarter`: formats a date as `YYYYQn`. -/
def format_quarter (d : Date) : String :=
  let quarter : ℕ :=
    if d.month ∈ ([1, 2, 3] : List ℕ) then 1
    else if d.month ∈ ([4, 5, 6] : List ℕ) then 2
    else if d.month ∈ ([7, 8, 9] : List ℕ) then 3
    else 4
  toString d.year ++ "Q" ++ toString quarter

/-- All present horizon values of the table, column by column: the
`all_values` list built by `get_global_y_range`. -/
def all_horizon_values (df : Table) : List ℚ :=
  df.horizon_cols.flatMap (fun c => df.columnValues c)

/-- `get_global_y_range`: `[min - 0.2, max + 0.2]` over all present horizon
values, or the default `[0, 5]` when there are none. -/
def get_global_y_range (df : Table) : List ℚ :=
  match all_horizon_values df with
  | [] => [0, 5]
  | v :: vs => [vs.foldl min v - 0.2, vs.foldl max v + 0.2]

/-- A Curve Record: the derived view of one table row built by
`prepare_curve_data`. -/
structure CurveRecord where
  date : Date
  quarter_label : String
  horizons : List ℕ
  values : List (Option ℚ)
deriving DecidableEq

/-- `prepare_curve_data`: one Curve Record per row, in row order. The
horizon lengths are parsed from the `pi_` columns in column order. -/
def prepare_curve_data (df : Table) : List CurveRecord :=
  let horizons := df.horizon_cols
  let horizon_values := horizons.map horizon_of_col
  df.rows.map (fun r =>
    { date := r.time
      quarter_label := format_quarter r.time
      horizons := horizon_values
      values := horizons.map (fun c => df.cell r c) })

section MinMaxFold

theorem foldl_min_le_init (vs : List ℚ) (a : ℚ) : vs.foldl min a ≤ a := by
  induction vs generalizing a with
  | nil => exact le_refl a
  | cons v vs ih => exact le_trans (ih (min a v)) (min_le_left a v)

theorem foldl_min_le (vs : List ℚ) (a : ℚ) : ∀ v ∈ vs, vs.foldl min a ≤ v := by
  induction vs generalizing a with
  | nil => intro v hv; cases hv
  | cons w vs ih =>
    intro v hv
    rcases List.mem_cons.mp hv with h | h
    · subst h
      exact le_trans (foldl_min_le_init vs (min a v)) (min_le_right a v)
    · exact ih (min a w) v h

theorem foldl_min_mem (vs : List ℚ) (a : ℚ) : vs.foldl min a ∈ a :: vs := by
  induction vs generalizing a with
  | nil => simp
  | cons v vs ih =>
    have h := ih (min a v)
    rcases List.mem_cons.mp h with h' | h'
    · rcases min_choice a v with hm | hm
      · rw [List.foldl_cons, h', hm]; simp
      · rw [List.foldl_cons, h', hm]; simp
    · simp [List.mem_cons.mpr (Or.inr h')]

theorem le_foldl_max_init (vs : List ℚ) (a : ℚ) : a ≤ vs.foldl max a := by
  induction vs generalizing a with
  | nil => exact le_refl a
  | cons v vs ih => exact le_trans (le_max_left a v) (ih (max a v))

theorem le_foldl_max (vs : List ℚ) (a : ℚ) : ∀ v ∈ vs, v ≤ vs.foldl max a := by
  induction vs generalizing a with
  | nil => intro v hv; cases hv
  | cons w vs ih =>
    intro v hv
    rcases List.mem_cons.mp hv with h | h
    · subst h
      exact le_trans (le_max_right a v) (le_foldl_max_init vs (max a v))
    · exact ih (max a w) v h

theorem foldl_max_mem (vs : List ℚ) (a : ℚ) : vs.foldl max a ∈ a :: vs := by
  induction vs generalizing a with
  | nil => simp
  | cons v vs ih =>
    have h := ih (max a v)
    rcases List.mem_cons.mp h with h' | h'
    · rcases max_choice a v with hm | hm
      · rw [List.foldl_cons, h', hm]; simp
      · rw [List.foldl_cons, h', hm]; simp
    · simp [List.mem_cons.mpr (Or.inr h')]

end MinMaxFold

/-- C3: for every Observation Table that has at least one present horizon
value, `get_global_y_range` returns exactly `[m - 0.2, M + 0.2]` where `m`
and `M` are the minimum and maximum over all present horizon values, so the
first component is `≤` every value and the second is `≥` every value, with
exactly `0.2` margin on each side. -/
theorem get_global_y_range_spec (df : Table) (h : all_horizon_values df ≠ []) :
    ∃ m M : ℚ,
      get_global_y_range df = [m - 0.2, M + 0.2] ∧
      m ∈ all_horizon_values df ∧ M ∈ all_horizon_values df ∧
      ∀ v ∈ all_horizon_values df, m ≤ v ∧ v ≤ M := by
  obtain ⟨v, vs, hvvs⟩ : ∃ v vs, all_horizon_values df = v :: vs := by
    cases hx : all_horizon_values df with
    | nil => exact absurd hx h
    | cons v vs => exact ⟨v, vs, rfl⟩
  refine ⟨vs.foldl min v, vs.foldl max v, ?_, ?_, ?_, ?_⟩
  · simp only [get_global_y_range, hvvs]
  · rw [hvvs]; exact foldl_min_mem vs v
  · rw [hvvs]; exact foldl_max_mem vs v
  · intro w hw
    rw [hvvs] at hw
    rcases List.mem_cons.mp hw with h' | h'
    · subst h'
      exact ⟨foldl_min_le_init vs w, le_foldl_max_init vs w⟩
    · exact ⟨foldl_min_le vs v w h', le_foldl_max vs v w h'⟩

/-- C3 witness: a concrete table with values 1, 3 and 2.5 in its `pi_`
columns; the range is an interval containing them all with 0.2 margins. -/
theorem get_global_y_range_spec_witness :
    ∃ m M : ℚ,
      get_global_y_range
          ⟨["pi_1q", "pi_2q"],
           [⟨⟨1999, 3, 31⟩, [some 1, some 3]⟩,
            ⟨⟨1999, 6, 30⟩, [some (5/2), none]⟩]⟩ = [m - 0.2, M + 0.2] ∧
      m ∈ all_horizon_values
          ⟨["pi_1q", "pi_2q"],
           [⟨⟨1999, 3, 31⟩, [some 1, some 3]⟩,
            ⟨⟨1999, 6, 30⟩, [some (5/2), none]⟩]⟩ ∧
      M ∈ all_horizon_values
          ⟨["pi_1q", "pi_2q"],
           [⟨⟨1999, 3, 31⟩, [some 1, some 3]⟩,
            ⟨⟨1999, 6, 30⟩, [some (5/2), none]⟩]⟩ ∧
      ∀ v ∈ all_horizon_values
          ⟨["pi_1q", "pi_2q"],
           [⟨⟨1999, 3, 31⟩, [some 1, some 3]⟩,
            ⟨⟨1999, 6, 30⟩, [some (5/2), none]⟩]⟩, m ≤ v ∧ v ≤ M :=
  get_global_y_range_spec _ (by
    simp [all_horizon_values, Table.horizon_cols, Table.columnValues,
      Table.cell, startswith_pi])

/-- C10: a table with no present horizon values at all (no `pi_` column, or
every `pi_` cell missing) gets the fixed default range `[0, 5]`. -/
theorem get_global_y_range_default (df : Table)
    (h : ∀ r ∈ df.rows, ∀ c ∈ df.horizon_cols, df.cell r c = none) :
    get_global_y_range df = [0, 5] := by
  have hnil : all_horizon_values df = [] := by
    apply List.flatMap_eq_nil_iff.mpr
    intro c hc
    apply List.filterMap_eq_nil_iff.mpr
    intro r hr
    exact h r hr c hc
  simp only [get_global_y_range, hnil]

/-- C10 witness: a table whose sole `pi_` column is entirely missing. -/
theorem get_global_y_range_default_witness :
    get_global_y_range ⟨["pi_1q"], [⟨⟨1999, 3, 31⟩, [none]⟩]⟩ = [0, 5] :=
  get_global_y_range_default _ (by decide)

/-- C7: `format_quarter` maps a date with a valid month to the string
`YYYYQn` with `n = (month + 2) / 3`, i.e. months 1–3 give Q1, 4–6 give Q2,
7–9 give Q3 and 10–12 give Q4; in particular 1999-03-31 gives "1999Q1" and
2020-12-31 gives "2020Q4". It is a pure function of the date. -/
theorem format_quarter_spec (d : Date) (h1 : 1 ≤ d.month) (h2 : d.month ≤ 12) :
    format_quarter d = toString d.year ++ "Q" ++ toString ((d.month + 2) / 3) ∧
    format_quarter ⟨1999, 3, 31⟩ = "1999Q1" ∧
    format_quarter ⟨2020, 12, 31⟩ = "2020Q4" := by
  refine ⟨?_, by decide, by decide⟩
  obtain ⟨y, m, dd⟩ := d
  simp only at h1 h2
  interval_cases m <;> simp [format_quarter]

/-- C1 (amended): curve extraction produces exactly one Curve Record per
table row, in the table's (chronological) row order, with the values list
positionally aligned with the horizons list and of equal length; the
horizons are the horizon lengths parsed from the `pi_` columns in the
table's column order — so they are sorted ascending whenever the table's
horizon columns appear in ascending horizon order (as in the app's data
files), but extraction itself does not sort them. -/
theorem prepare_curve_data_spec (df : Table) :
    (prepare_curve_data df).length = df.rows.length ∧
    ((prepare_curve_data df).map CurveRecord.date = df.rows.map Row.time) ∧
    (∀ (i : ℕ) (r : Row), df.rows[i]? = some r →
      ∃ rec : CurveRecord, (prepare_curve_data df)[i]? = some rec ∧
        rec.horizons = df.horizon_cols.map horizon_of_col ∧
        rec.values = df.horizon_cols.map (fun c => df.cell r c) ∧
        rec.values.length = rec.horizons.length) ∧
    (List.Sorted (· ≤ ·) (df.horizon_cols.map horizon_of_col) →
      ∀ rec ∈ prepare_curve_data df, List.Sorted (· ≤ ·) rec.horizons) := by
  refine ⟨by simp [prepare_curve_data], by simp [prepare_curve_data], ?_, ?_⟩
  · intro i r hr
    refine ⟨{ date := r.time, quarter_label := format_quarter r.time,
              horizons := df.horizon_cols.map horizon_of_col,
              values := df.horizon_cols.map (fun c => df.cell r c) },
            ?_, rfl, rfl, by simp⟩
    simp [prepare_curve_data, List.getElem?_map, hr]
  · intro hsorted rec hrec
    simp only [prepare_curve_data, List.mem_map] at hrec
    obtain ⟨r, _, hre⟩ := hrec
    rw [← hre]
    exact hsorted

/-- C1 counterexample: a table whose `pi_` columns appear out of horizon
order (`pi_2q` before `pi_1q`). Curve extraction follows column order, so
the extracted record's horizons list is `[2, 1]`, which is not sorted
ascending — refuting the claim that every record's horizons are sorted. -/
theorem prepare_curve_data_not_sorted :
    ¬ ∀ rec ∈ prepare_curve_data
        ⟨["pi_2q", "pi_1q"], [⟨⟨1999, 3, 31⟩, [some 1, some 2]⟩]⟩,
      List.Sorted (· ≤ ·) rec.horizons := by
  decide

/-- C1 witness: the amended statement applied to a concrete two-row,
two-horizon-column table. -/
theorem prepare_curve_data_spec_witness :
    ∃ rec : CurveRecord, (prepare_curve_data
        ⟨["pi_1q", "pi_2q"],
         [⟨⟨1999, 3, 31⟩, [some 1, none]⟩,
          ⟨⟨1999, 6, 30⟩, [none, some 2]⟩]⟩)[1]? = some rec ∧
      rec.horizons = [1, 2] ∧
      rec.values = [none, some 2] ∧
      rec.values.length = rec.horizons.length := by
  obtain ⟨rec, h1, h2, h3, h4⟩ :=
    (prepare_curve_data_spec
        ⟨["pi_1q", "pi_2q"],
         [⟨⟨1999, 3, 31⟩, [some 1, none]⟩,
          ⟨⟨1999, 6, 30⟩, [none, some 2]⟩]⟩).2.2.1 1
      ⟨⟨1999, 6, 30⟩, [none, some 2]⟩ (by decide)
  refine ⟨rec, h1, ?_, ?_, h4⟩
  · rw [h2]; decide
  · rw [h3]; decide

/-- C6: a row with a missing value for some horizon column (such as `pi_4q`)
still produces a Curve Record — extraction neither crashes nor discards the
record — and the value at that horizon's position is the missing marker
(`none`, embedding pandas NaN). -/
theorem prepare_curve_data_missing (df : Table) (i j : ℕ) (r : Row) (c : String)
    (hr : df.rows[i]? = some r) (hc : df.horizon_cols[j]? = some c)
    (hmiss : df.cell r c = none) :
    ∃ rec : CurveRecord, (prepare_curve_data df)[i]? = some rec ∧
      rec.date = r.time ∧ rec.values[j]? = some none := by
  refine ⟨{ date := r.time, quarter_label := format_quarter r.time,
            horizons := df.horizon_cols.map horizon_of_col,
            values := df.horizon_cols.map (fun c => df.cell r c) },
          ?_, rfl, ?_⟩
  · simp [prepare_curve_data, List.getElem?_map, hr]
  · show (df.horizon_cols.map (fun c => df.cell r c))[j]? = some none
    rw [List.getElem?_map, hc]
    simp [hmiss]

/-- C6 witness: a one-row table whose `pi_4q` cell is missing; the record is
produced and carries `none` at the `pi_4q` position. -/
theorem prepare_curve_data_missing_witness :
    ∃ rec : CurveRecord, (prepare_curve_data
        ⟨["pi_1q", "pi_4q"], [⟨⟨1999, 3, 31⟩, [some 2, none]⟩]⟩)[0]? = some rec ∧
      rec.date = ⟨1999, 3, 31⟩ ∧ rec.values[1]? = some none :=
  prepare_curve_data_missing _ 0 1 ⟨⟨1999, 3, 31⟩, [some 2, none]⟩ "pi_4q"
    (by decide) (by decide) (by decide)

/-- C7 witness: the spec formula evaluated at 2000-05-15 (month 5, Q2),
with the closed examples carried along. -/
theorem format_quarter_spec_witness :
    format_quarter ⟨2000, 5, 15⟩ = "2000Q2" ∧
    format_quarter ⟨1999, 3, 31⟩ = "1999Q1" := by
  have h := format_quarter_spec ⟨2000, 5, 15⟩ (by decide) (by decide)
  exact ⟨h.1.trans (by decide), h.2.1⟩

/-- The qualitative palette `px.colors.qualitative.Set1` used by the
comparison chart. -/
def Set1 : List String :=
  ["rgb(228,26,28)", "rgb(55,126,184)", "rgb(77,175,74)", "rgb(152,78,163)",
   "rgb(255,127,0)", "rgb(255,255,51)", "rgb(166,86,40)", "rgb(247,129,191)",
   "rgb(153,153,153)"]

/-- One plotly trace (series) of a chart: the data the app passes to
`go.Scatter`. -/
structure Trace where
  x : List ℕ
  y : List (Option ℚ)
  name : String
  color : String
deriving DecidableEq

/-- A chart specification: its traces plus the optional fixed y-axis range. -/
structure Chart where
  traces : List Trace
  yaxis_range : Option (List ℚ)
deriving DecidableEq

/-- The comparison chart's per-date loop: for the `i`-th selected date, take
the first table row with that `Time` (`df[df['Time'] == date].iloc[0]` —
`none`, a raised IndexError, if no row matches), and emit a trace whose y
values follow the `pi_` columns and whose color cycles through `Set1`. -/
def comparison_traces (df : Table) (horizons : List String)
    (horizon_values : List ℕ) : ℕ → List Date → Option (List Trace)
  | _, [] => some []
  | i, d :: ds =>
    match df.rows.find? (fun r => r.time == d) with
    | none => none
    | some row =>
      match comparison_traces df horizons horizon_values (i + 1) ds with
      | none => none
      | some rest =>
        some ({ x := horizon_values,
                y := horizons.map (fun c => df.cell row c),
                name := format_quarter d,
                color := Set1.getD (i % Set1.length) "" } :: rest)

/-- `create_comparison_chart`: one trace per selected date, in selection
order; `none` models the Python exception escaping the function. -/
def create_comparison_chart (df : Table) (selected_dates : List Date)
    (use_fixed_scale : Bool) : Option Chart :=
  let horizons := df.horizon_cols
  let horizon_values := horizons.map horizon_of_col
  match comparison_traces df horizons horizon_values 0 selected_dates with
  | none => none
  | some ts =>
    some { traces := ts,
           yaxis_range :=
             if use_fixed_scale then some (get_global_y_range df) else none }

theorem comparison_traces_none (df : Table) (horizons : List String)
    (horizon_values : List ℕ) (d : Date) (hmiss : ∀ r ∈ df.rows, r.time ≠ d) :
    ∀ (dates : List Date) (i : ℕ), d ∈ dates →
      comparison_traces df horizons horizon_values i dates = none := by
  intro dates
  induction dates with
  | nil => intro i h; cases h
  | cons d' ds ih =>
    intro i hd
    rcases List.mem_cons.mp hd with h | h
    · subst h
      have hfind : df.rows.find? (fun r => r.time == d) = none :=
        List.find?_eq_none.mpr (fun r hr => by
          simpa using hmiss r hr)
      simp only [comparison_traces, hfind]
    · cases hfind : df.rows.find? (fun r => r.time == d') with
      | none => simp only [comparison_traces, hfind]
      | some row =>
        simp only [comparison_traces, hfind, ih (i + 1) h]

/-- C4: building the comparison chart for a selected date that matches no
table row errors (the raised lookup failure, modelled as `none`) instead of
producing a chart. -/
theorem create_comparison_chart_missing_date (df : Table) (dates : List Date)
    (b : Bool) (d : Date) (hd : d ∈ dates)
    (hmiss : ∀ r ∈ df.rows, r.time ≠ d) :
    create_comparison_chart df dates b = none := by
  have h := comparison_traces_none df df.horizon_cols
    (df.horizon_cols.map horizon_of_col) d hmiss dates 0 hd
  simp only [create_comparison_chart, h]

/-- C4 witness: selecting 2001Q1 on a table whose only row is 1999Q1
produces no chart. -/
theorem create_comparison_chart_missing_date_witness :
    create_comparison_chart
      ⟨["pi_1q"], [⟨⟨1999, 3, 31⟩, [some 1]⟩]⟩ [⟨2001, 3, 31⟩] true = none :=
  create_comparison_chart_missing_date _ _ true ⟨2001, 3, 31⟩ (by decide)
    (by decide)

/-- C5: building the comparison chart with an empty selected-dates list
yields a chart with no traces and does not error, for every table and both
axis modes. -/
theorem create_comparison_chart_empty (df : Table) (b : Bool) :
    ∃ ch : Chart, create_comparison_chart df [] b = some ch ∧ ch.traces = [] :=
  ⟨_, rfl, rfl⟩

/-- C5 witness: the empty selection on a concrete table. -/
theorem create_comparison_chart_empty_witness :
    ∃ ch : Chart,
      create_comparison_chart ⟨["pi_1q"], [⟨⟨1999, 3, 31⟩, [some 1]⟩]⟩ [] false =
        some ch ∧ ch.traces = [] :=
  create_comparison_chart_empty ⟨["pi_1q"], [⟨⟨1999, 3, 31⟩, [some 1]⟩]⟩ false

/-- Round half to even to an integer (Python/numpy rounding). -/
def round_half_even (q : ℚ) : ℤ :=
  if q - ⌊q⌋ = 1/2 then (if 2 ∣ ⌊q⌋ then ⌊q⌋ else ⌊q⌋ + 1) else round q

/-- `round(x, 3)`: numpy's round to three decimal places. -/
def round3 (q : ℚ) : ℚ := (round_half_even (q * 1000) : ℚ) / 1000

/-- `col.replace(' ', '')`: strip every space from a column name. -/
def remove_spaces (s : String) : String :=
  String.mk (s.data.filter (fun c => c ≠ ' '))

/-- Chronological order on dates (pandas compares the timestamps; on valid
dates that is the lexicographic year/month/day order). -/
def dateLe (a b : Date) : Prop :=
  a.year < b.year ∨ (a.year = b.year ∧
    (a.month < b.month ∨ (a.month = b.month ∧ a.day ≤ b.day)))

instance : DecidableRel dateLe := fun a b => by unfold dateLe; infer_instance

/-- Row order used by `df.sort_values('Time')`. -/
def rowLe (a b : Row) : Prop := dateLe a.time b.time

instance : DecidableRel rowLe := fun a b => by unfold rowLe dateLe; infer_instance

instance : IsTotal Row rowLe := ⟨by intro a b; unfold rowLe dateLe; omega⟩

instance : IsTrans Row rowLe := ⟨by intro a b c; unfold rowLe dateLe; omega⟩

/-- Rounding a whole row's numeric cells (missing stays missing). -/
def Row.round3cells (r : Row) : Row := ⟨r.time, r.cells.map (Option.map round3)⟩

/-- Model of `load_data`'s own processing of the spreadsheet contents (the
Excel read, the `Time`-column renaming and the date parsing belong to the
external I/O library): strip spaces from column names, round every numeric
cell to three decimals, and sort the rows ascending by `Time`, reindexing
contiguously. -/
def load_data_process (t : Table) : Table :=
  { valueCols := t.valueCols.map remove_spaces,
    rows := List.insertionSort rowLe (t.rows.map Row.round3cells) }

/-- C2 (amended): the loader's processing returns the rows sorted ascending
by the `Time` column; the order is strictly ascending with no duplicate
dates whenever the source itself carries no duplicate dates — but the loader
does not deduplicate, so a source with repeated dates keeps them. -/
theorem load_data_process_sorted (t : Table) :
    List.Sorted rowLe (load_data_process t).rows ∧
    ((t.rows.map Row.time).Nodup →
      (load_data_process t).rows.Pairwise
        (fun a b => dateLe a.time b.time ∧ a.time ≠ b.time)) := by
  constructor
  · exact List.sorted_insertionSort rowLe _
  · intro hnd
    have hsorted : (load_data_process t).rows.Pairwise rowLe :=
      List.sorted_insertionSort rowLe _
    have hperm : (load_data_process t).rows.Perm (t.rows.map Row.round3cells) :=
      List.perm_insertionSort rowLe _
    have htime : (t.rows.map Row.round3cells).map Row.time = t.rows.map Row.time := by
      rw [List.map_map]; rfl
    have hnd2 : ((load_data_process t).rows.map Row.time).Nodup := by
      refine ((hperm.map Row.time).nodup_iff).mpr ?_
      rw [htime]; exact hnd
    have hne : (load_data_process t).rows.Pairwise (fun a b => a.time ≠ b.time) :=
      List.pairwise_map.mp hnd2
    exact (hsorted.and hne).imp (fun h => ⟨h.1, h.2⟩)

/-- C2 counterexample: a source whose two rows carry the same date. The
processing sorts but does not deduplicate, so the result is not strictly
ascending — refuting the claim for sources with repeated dates. -/
theorem load_data_process_duplicate_dates :
    ¬ (load_data_process
        ⟨["pi_1q"], [⟨⟨1999, 3, 31⟩, [none]⟩, ⟨⟨1999, 3, 31⟩, [none]⟩]⟩).rows.Pairwise
      (fun a b => dateLe a.time b.time ∧ a.time ≠ b.time) := by
  decide

/-- C2 witness: a two-row source with distinct, out-of-order dates comes out
strictly ascending. -/
theorem load_data_process_sorted_witness :
    (load_data_process
        ⟨["pi_1q"], [⟨⟨2000, 6, 30⟩, [none]⟩, ⟨⟨1999, 3, 31⟩, [none]⟩]⟩).rows.Pairwise
      (fun a b => dateLe a.time b.time ∧ a.time ≠ b.time) :=
  (load_data_process_sorted
    ⟨["pi_1q"], [⟨⟨2000, 6, 30⟩, [none]⟩, ⟨⟨1999, 3, 31⟩, [none]⟩]⟩).2 (by decide)

/-- Model of numpy's global random-number state. The Python code mutates a
process-global generator; here that state is threaded explicitly. -/
structure NpRng where
  state : ℕ
deriving DecidableEq

/-- `np.random.seed(n)`: reset the global state from the seed alone. -/
def np_seed (n : ℕ) : NpRng := ⟨n⟩

/-- One pseudorandom draw. A linear congruential step stands in for numpy's
Mersenne Twister; what the claims depend on is only that the draw is a pure
function of the state. -/
def np_next (g : NpRng) : ℚ × NpRng :=
  let s := (g.state * 1103515245 + 12345) % 2147483648
  ((((s % 2001 : ℕ) : ℚ) - 1000) / 1000, ⟨s⟩)

/-- `np.random.normal(mu, sigma, n)`: `n` draws, advancing the state. -/
def np_normal_list (mu sigma : ℚ) : ℕ → NpRng → List ℚ × NpRng
  | 0, g => ([], g)
  | n + 1, g =>
    let p := np_next g
    let rest := np_normal_list mu sigma n p.2
    ((mu + sigma * p.1) :: rest.1, rest.2)

/-- Rational stand-in for `np.pi`. -/
def pi_approx : ℚ := 355 / 113

/-- Computable stand-in for `np.sin` (truncated Taylor series); only that it
is a fixed pure function matters to the claims below. -/
def sin_approx (x : ℚ) : ℚ := x - x ^ 3 / 6 + x ^ 5 / 120

/-- `np.linspace(a, b, n)`. -/
def linspace (a b : ℚ) (n : ℕ) : List ℚ :=
  (List.range n).map (fun i => a + (b - a) * i / ((n : ℚ) - 1))

/-- The synthetic quarterly dates: year 1989 keeps only Q4, then every
quarter of 1990–2025; quarter-end days as in the source (31.03, 30.06,
30.09, 31.12). -/
def sample_quarters : List Date :=
  (List.range 37).flatMap (fun yi =>
    let year := 1989 + yi
    ([3, 6, 9, 12] : List ℕ).filterMap (fun q =>
      if year = 1989 ∧ q < 12 then none
      else some ⟨year, q, if q = 3 ∨ q = 12 then 31 else 30⟩))

/-- The shared sinusoidal base trend `2.0 + 0.5 * sin(linspace(0, 4π, n))`. -/
def base_trend (n : ℕ) : List ℚ :=
  (linspace 0 (4 * pi_approx) n).map (fun x => 2 + (1/2) * sin_approx x)

/-- One synthetic horizon column: base trend + per-horizon offset
`(q - 1) * 0.01` + noise `normal(0, 0.2)`, floored at `0.5`. -/
def sample_column (q n : ℕ) (g : NpRng) : List ℚ × NpRng :=
  let noise := np_normal_list 0 (1/5) n g
  (((base_trend n).zip noise.1).map
    (fun p => max (p.1 + ((q : ℚ) - 1) * (1/100) + p.2) (1/2)), noise.2)

/-- The synthetic columns for horizons `q, q+1, …` (`k` of them), threading
the random state across columns exactly as the Python loop does. -/
def sample_columns (n : ℕ) : ℕ → ℕ → NpRng → List (List ℚ) × NpRng
  | _, 0, g => ([], g)
  | q, k + 1, g =>
    let col := sample_column q n g
    let rest := sample_columns n (q + 1) k col.2
    (col.1 :: rest.1, rest.2)

/-- `load_sample_data` with numpy's global random state passed explicitly:
the function seeds the generator with the fixed seed 42 before any draw, so
the incoming state is never consulted. Columns are `pi_1q` … `pi_40q`; each
row pairs a quarter with the per-column synthetic values (all present). -/
def load_sample_data (g : NpRng) : Table × NpRng :=
  let quarters := sample_quarters
  let n := quarters.length
  let g0 := np_seed 42
  let cols := sample_columns n 1 40 g0
  ({ valueCols := (List.range 40).map (fun q => "pi_" ++ toString (q + 1) ++ "q"),
     rows := (List.range n).map (fun i =>
       { time := quarters.getD i ⟨0, 0, 0⟩,
         cells := cols.1.map (fun col => some (col.getD i 0)) }) },
   cols.2)

/-- C9: the synthetic dataset generator is deterministic — with the random
seed fixed at 42 inside the function, two invocations from arbitrary (and
arbitrarily different) prior random states produce identical tables: same
dates, same horizon columns, same values. -/
theorem load_sample_data_deterministic (g1 g2 : NpRng) :
    (load_sample_data g1).1 = (load_sample_data g2).1 := rfl

/-- C9 witness: two concrete, different incoming random states. -/
theorem load_sample_data_deterministic_witness :
    (load_sample_data ⟨0⟩).1 = (load_sample_data ⟨123456⟩).1 :=
  load_sample_data_deterministic ⟨0⟩ ⟨123456⟩

/-- The character of a decimal digit. -/
def digit_char (d : ℕ) : Char := Char.ofNat (48 + d)

/-- A natural number printed in decimal, left-padded with zeros to width `w`. -/
def pad_chars (w m : ℕ) : List Char :=
  ((Nat.digits 10 m ++ List.replicate (w - (Nat.digits 10 m).length) 0).reverse).map
    digit_char

/-- A natural number printed in decimal (width at least one digit). -/
def nat_chars (m : ℕ) : List Char := pad_chars 1 m

/-- One CSV cell for a table value: empty for a missing value (as pandas
writes NaN), otherwise the signed decimal with three fractional digits —
the loader leaves only 3-decimal rationals in the table. -/
def cell_chars : Option ℚ → List Char
  | none => []
  | some q =>
    let k := (q * 1000).num
    let n := k.natAbs
    let body := nat_chars (n / 1000) ++ '.' :: pad_chars 3 (n % 1000)
    if k < 0 then '-' :: body else body

/-- The `Time` cell: the ISO date `YYYY-MM-DD` pandas writes. -/
def date_chars (d : Date) : List Char :=
  pad_chars 4 d.year ++ '-' :: (pad_chars 2 d.month ++ '-' :: pad_chars 2 d.day)

/-- Joining cells (or lines) with a separator character. -/
def join_sep (sep : Char) : List (List Char) → List Char
  | [] => []
  | [l] => l
  | l :: l' :: ls => l ++ sep :: join_sep sep (l' :: ls)

/-- Model of `df.to_csv(index=False)`, the text payload that
`download_data_as_csv` base64-encodes into the download link: a header line
`Time,<value columns>`, one comma-joined line per row, newline-separated
with pandas' trailing newline. -/
def to_csv (df : Table) : List Char :=
  let header := join_sep ',' ("Time".data :: df.valueCols.map String.data)
  let lines := header :: df.rows.map (fun r =>
    join_sep ',' (date_chars r.time :: r.cells.map cell_chars))
  join_sep '\n' lines ++ ['\n']

/-- Whether a character is a decimal digit. -/
def is_digit_char (c : Char) : Bool :=
  decide (48 ≤ c.toNat) && decide (c.toNat ≤ 57)

/-- Parse an unsigned decimal digit string. -/
def parse_nat (l : List Char) : Option ℕ :=
  if l ≠ [] ∧ l.all is_digit_char then some (digitsToVal l) else none

/-- Parse an ISO `YYYY-MM-DD` date. -/
def parse_date (l : List Char) : Option Date :=
  match splitOnChar '-' l with
  | [a, b, c] =>
    if a.length = 4 ∧ b.length = 2 ∧ c.length = 2 then
      match parse_nat a, parse_nat b, parse_nat c with
      | some y, some mo, some d => some ⟨y, mo, d⟩
      | _, _, _ => none
    else none
  | _ => none

/-- Parse an unsigned decimal with exactly three fractional digits. -/
def parse_pos_rat (l : List Char) : Option ℚ :=
  match splitOnChar '.' l with
  | [a, b] =>
    if b.length = 3 then
      match parse_nat a, parse_nat b with
      | some ip, some fp => some (((ip * 1000 + fp : ℕ) : ℚ) / 1000)
      | _, _ => none
    else none
  | _ => none

/-- Parse one value cell: empty means missing, `-` starts a negative value. -/
def parse_cell (l : List Char) : Option (Option ℚ) :=
  match l with
  | [] => some none
  | c :: rest =>
    if c = '-' then (parse_pos_rat rest).map (fun q => some (-q))
    else (parse_pos_rat (c :: rest)).map some

/-- All-or-nothing traversal (the re-parser stops at the first bad cell). -/
def mapOpt (f : α → Option β) : List α → Option (List β)
  | [] => some []
  | a :: l =>
    match f a, mapOpt f l with
    | some b, some bs => some (b :: bs)
    | _, _ => none

/-- Parse one data line into a row. -/
def parse_row (l : List Char) : Option Row :=
  match splitOnChar ',' l with
  | [] => none
  | dcell :: vcells =>
    match parse_date dcell, mapOpt parse_cell vcells with
    | some d, some vs => some ⟨d, vs⟩
    | _, _ => none

/-- Re-parse the CSV text into a table. -/
def parse_csv (text : List Char) : Option Table :=
  let groups := splitOnChar '\n' text
  let lines := if groups.getLast? = some [] then groups.dropLast else groups
  match lines with
  | [] => none
  | header :: rowlines =>
    match splitOnChar ',' header with
    | [] => none
    | tcol :: cols =>
      if tcol = "Time".data then
        match mapOpt parse_row rowlines with
        | some rs => some ⟨cols.map String.mk, rs⟩
        | none => none
      else none

/-- A value the loader can actually leave in a table: missing, or a
3-decimal rational. -/
def dec3 : Option ℚ → Prop
  | none => True
  | some q => (q * 1000).den = 1

/-- A row the loader can actually produce: date fields within their printed
widths, all values 3-decimal. -/
def row_wf (r : Row) : Prop :=
  r.time.year < 10000 ∧ r.time.month < 100 ∧ r.time.day < 100 ∧
    ∀ v ∈ r.cells, dec3 v

/-- A table as the loader produces it, with printable column names. -/
def table_wf (df : Table) : Prop :=
  (∀ c ∈ df.valueCols, ',' ∉ c.data ∧ '\n' ∉ c.data) ∧ ∀ r ∈ df.rows, row_wf r

section SplitJoin

theorem splitOnChar_ne_nil (sep : Char) : ∀ l : List Char, splitOnChar sep l ≠ []
  | [] => by simp [splitOnChar]
  | c :: cs => by
    cases h : splitOnChar sep cs with
    | nil => simp [splitOnChar, h]
    | cons g gs =>
      simp only [splitOnChar, h]
      split <;> simp

theorem splitOnChar_no_sep (sep : Char) (l : List Char) (h : sep ∉ l) :
    splitOnChar sep l = [l] := by
  induction l with
  | nil => rfl
  | cons c cs ih =>
    have hc : c ≠ sep := by rintro rfl; exact h (List.mem_cons_self _ _)
    have hcs : sep ∉ cs := fun hx => h (List.mem_cons_of_mem _ hx)
    simp [splitOnChar, ih hcs, hc]

theorem splitOnChar_append (sep : Char) (a rest : List Char) (h : sep ∉ a) :
    splitOnChar sep (a ++ sep :: rest) = a :: splitOnChar sep rest := by
  induction a with
  | nil =>
    simp only [List.nil_append, splitOnChar]
    cases hx : splitOnChar sep rest with
    | nil => exact absurd hx (splitOnChar_ne_nil sep rest)
    | cons g gs => simp
  | cons c cs ih =>
    have hc : c ≠ sep := by rintro rfl; exact h (List.mem_cons_self _ _)
    have hcs : sep ∉ cs := fun hx => h (List.mem_cons_of_mem _ hx)
    simp only [List.cons_append, splitOnChar, List.append_eq]
    rw [ih hcs]
    simp [hc]

theorem splitOnChar_join (sep : Char) :
    ∀ ls : List (List Char), ls ≠ [] → (∀ l ∈ ls, sep ∉ l) →
      splitOnChar sep (join_sep sep ls) = ls
  | [], h, _ => absurd rfl h
  | [l], _, hmem => by
    simp [join_sep, splitOnChar_no_sep sep l (hmem l (by simp))]
  | l :: l' :: ls, _, hmem => by
    have h1 : sep ∉ l := hmem l (by simp)
    have ih := splitOnChar_join sep (l' :: ls) (by simp)
      (fun x hx => hmem x (List.mem_cons_of_mem _ hx))
    simp only [join_sep, splitOnChar_append sep l _ h1, ih]

theorem join_sep_concat_nil (sep : Char) :
    ∀ ls : List (List Char), ls ≠ [] →
      join_sep sep (ls ++ [[]]) = join_sep sep ls ++ [sep]
  | [], h => absurd rfl h
  | [l], _ => by simp [join_sep]
  | l :: l' :: ls, _ => by
    have ih := join_sep_concat_nil sep (l' :: ls) (by simp)
    rw [List.cons_append] at ih
    simp only [List.cons_append, join_sep, List.append_eq]
    rw [ih]
    simp

theorem mem_join_sep (sep : Char) :
    ∀ (ls : List (List Char)) (c : Char), c ∈ join_sep sep ls →
      c = sep ∨ ∃ l ∈ ls, c ∈ l
  | [], c, hc => by simp [join_sep] at hc
  | [l], c, hc => by
    right
    exact ⟨l, by simp, by simpa [join_sep] using hc⟩
  | l :: l' :: ls, c, hc => by
    simp only [join_sep, List.mem_append, List.mem_cons] at hc
    rcases hc with h | h | h
    · exact Or.inr ⟨l, by simp, h⟩
    · exact Or.inl h
    · rcases mem_join_sep sep (l' :: ls) c h with h' | ⟨x, hx, hcx⟩
      · exact Or.inl h'
      · exact Or.inr ⟨x, List.mem_cons_of_mem _ hx, hcx⟩

end SplitJoin

section Digits

theorem digit_char_toNat (d : ℕ) (h : d < 10) : (digit_char d).toNat = 48 + d := by
  interval_cases d <;> rfl

theorem pad_chars_mem_lt (w m : ℕ) :
    ∀ d ∈ Nat.digits 10 m ++ List.replicate (w - (Nat.digits 10 m).length) 0,
      d < 10 := by
  intro d hd
  rcases List.mem_append.mp hd with h | h
  · exact Nat.digits_lt_base (by norm_num) h
  · rw [List.eq_of_mem_replicate h]; norm_num

theorem is_digit_digit_char (d : ℕ) (h : d < 10) :
    is_digit_char (digit_char d) = true := by
  simp only [is_digit_char, digit_char_toNat d h, Bool.and_eq_true, decide_eq_true_eq]
  omega

theorem pad_chars_digits (w m : ℕ) : ∀ c ∈ pad_chars w m, is_digit_char c = true := by
  intro c hc
  simp only [pad_chars, List.mem_map, List.mem_reverse] at hc
  obtain ⟨d, hd, rfl⟩ := hc
  exact is_digit_digit_char d (pad_chars_mem_lt w m d hd)

theorem is_digit_char_ne (c : Char) (h : is_digit_char c = true) :
    c ≠ ',' ∧ c ≠ '\n' ∧ c ≠ '-' ∧ c ≠ '.' := by
  simp only [is_digit_char, Bool.and_eq_true, decide_eq_true_eq] at h
  obtain ⟨h1, h2⟩ := h
  refine ⟨fun hc => ?_, fun hc => ?_, fun hc => ?_, fun hc => ?_⟩ <;>
    subst hc <;> revert h1 h2 <;> decide

theorem pad_chars_no_comma (w m : ℕ) : ',' ∉ pad_chars w m :=
  fun h => (is_digit_char_ne _ (pad_chars_digits w m _ h)).1 rfl

theorem pad_chars_no_newline (w m : ℕ) : '\n' ∉ pad_chars w m :=
  fun h => (is_digit_char_ne _ (pad_chars_digits w m _ h)).2.1 rfl

theorem pad_chars_no_dash (w m : ℕ) : '-' ∉ pad_chars w m :=
  fun h => (is_digit_char_ne _ (pad_chars_digits w m _ h)).2.2.1 rfl

theorem pad_chars_no_dot (w m : ℕ) : '.' ∉ pad_chars w m :=
  fun h => (is_digit_char_ne _ (pad_chars_digits w m _ h)).2.2.2 rfl

theorem ofDigits_replicate_zero (b k : ℕ) :
    Nat.ofDigits b (List.replicate k 0) = 0 := by
  induction k with
  | zero => rfl
  | succ k ih => simp [List.replicate_succ, Nat.ofDigits_cons, ih]

theorem digitsToVal_rev_map (ds : List ℕ) (h : ∀ d ∈ ds, d < 10) :
    ∀ a : ℕ,
      (ds.reverse.map digit_char).foldl (fun x c => 10 * x + (c.toNat - 48)) a =
        a * 10 ^ ds.length + Nat.ofDigits 10 ds := by
  induction ds with
  | nil => intro a; simp [Nat.ofDigits]
  | cons d ds ih =>
    intro a
    have hd : d < 10 := h d (by simp)
    have hds : ∀ x ∈ ds, x < 10 := fun x hx => h x (by simp [hx])
    rw [List.reverse_cons, List.map_append, List.foldl_append, ih hds a]
    simp only [List.map_cons, List.map_nil, List.foldl_cons, List.foldl_nil,
      digit_char_toNat d hd, Nat.ofDigits_cons, Nat.cast_id]
    have : 48 + d - 48 = d := by omega
    rw [this, List.length_cons, pow_succ]
    ring

theorem pad_chars_length_ge (w m : ℕ) (hw : 1 ≤ w) : 1 ≤ (pad_chars w m).length := by
  simp only [pad_chars, List.length_map, List.length_reverse, List.length_append,
    List.length_replicate]
  omega

theorem parse_nat_pad (w m : ℕ) (hw : 1 ≤ w) : parse_nat (pad_chars w m) = some m := by
  have hne : pad_chars w m ≠ [] := by
    intro hx
    have := pad_chars_length_ge w m hw
    rw [hx] at this
    simp at this
  have hall : (pad_chars w m).all is_digit_char = true :=
    List.all_eq_true.mpr (fun c hc => pad_chars_digits w m c hc)
  rw [parse_nat, if_pos ⟨hne, hall⟩]
  congr 1
  show digitsToVal (pad_chars w m) = m
  unfold digitsToVal pad_chars
  rw [digitsToVal_rev_map _ (pad_chars_mem_lt w m) 0]
  rw [Nat.ofDigits_append, Nat.ofDigits_digits, ofDigits_replicate_zero]
  ring

theorem pad_chars_length (w m : ℕ) (h : m < 10 ^ w) : (pad_chars w m).length = w := by
  have hd : (Nat.digits 10 m).length ≤ w := by
    rcases Nat.eq_zero_or_pos m with rfl | hm
    · simp
    · rw [Nat.digits_len 10 m (by norm_num) (by omega)]
      have hlog : Nat.log 10 m < w :=
        (Nat.lt_pow_iff_log_lt (by norm_num) (by omega)).mp h
      omega
  simp only [pad_chars, List.length_map, List.length_reverse, List.length_append,
    List.length_replicate]
  omega

end Digits

section CellRoundTrip

theorem parse_pos_rat_body (i f : ℕ) (hf : f < 1000) :
    parse_pos_rat (nat_chars i ++ '.' :: pad_chars 3 f) =
      some (((i * 1000 + f : ℕ) : ℚ) / 1000) := by
  simp only [nat_chars]
  have hsplit : splitOnChar '.' (pad_chars 1 i ++ '.' :: pad_chars 3 f)
      = [pad_chars 1 i, pad_chars 3 f] := by
    rw [splitOnChar_append '.' _ _ (pad_chars_no_dot 1 i),
        splitOnChar_no_sep '.' _ (pad_chars_no_dot 3 f)]
  simp only [parse_pos_rat, hsplit]
  rw [if_pos (pad_chars_length 3 f (lt_of_lt_of_le hf (by norm_num)))]
  rw [parse_nat_pad 1 i (le_refl 1), parse_nat_pad 3 f (by norm_num)]

theorem nat_chars_head_digit (m : ℕ) :
    ∃ c t, nat_chars m = c :: t ∧ is_digit_char c = true := by
  obtain ⟨c, t, hct⟩ := List.exists_cons_of_ne_nil
    (show nat_chars m ≠ [] by
      simp only [nat_chars]
      intro hx
      have := pad_chars_length_ge 1 m (le_refl 1)
      rw [hx] at this
      simp at this)
  refine ⟨c, t, hct, pad_chars_digits 1 m c ?_⟩
  rw [show nat_chars m = pad_chars 1 m from rfl] at hct
  rw [hct]
  exact List.mem_cons_self _ _

theorem parse_cell_cell_chars (v : Option ℚ) (h : dec3 v) :
    parse_cell (cell_chars v) = some v := by
  cases v with
  | none => rfl
  | some q =>
    have hden : (q * 1000).den = 1 := h
    have hq : ((q * 1000).num : ℚ) = q * 1000 := Rat.coe_int_num_of_den_eq_one hden
    set k := (q * 1000).num with hk
    set n := k.natAbs with hn
    have hq' : q = (k : ℚ) / 1000 := by
      rw [eq_div_iff (by norm_num : (1000 : ℚ) ≠ 0)]
      exact hq.symm
    have hbody : parse_pos_rat (nat_chars (n / 1000) ++ '.' :: pad_chars 3 (n % 1000)) =
        some ((n : ℚ) / 1000) := by
      rw [parse_pos_rat_body _ _ (Nat.mod_lt _ (by norm_num)),
        (by omega : n / 1000 * 1000 + n % 1000 = n)]
    by_cases hneg : k < 0
    · have hcell : cell_chars (some q) =
          '-' :: (nat_chars (n / 1000) ++ '.' :: pad_chars 3 (n % 1000)) := by
        simp only [cell_chars, ← hk, ← hn, if_pos hneg]
      rw [hcell]
      simp only [parse_cell]
      rw [if_pos trivial, hbody, Option.map_some']
      refine congrArg _ (congrArg _ ?_)
      have hcast : (n : ℚ) = -(k : ℚ) := by
        rw [hn, Int.cast_natAbs, abs_of_neg hneg]
        push_cast
        ring
      rw [hcast, hq']
      ring
    · have hcell : cell_chars (some q) =
          nat_chars (n / 1000) ++ '.' :: pad_chars 3 (n % 1000) := by
        simp only [cell_chars, ← hk, ← hn, if_neg hneg]
      obtain ⟨c, t, hct, hcd⟩ := nat_chars_head_digit (n / 1000)
      have hcne : c ≠ '-' := (is_digit_char_ne c hcd).2.2.1
      rw [hcell, hct, List.cons_append]
      simp only [parse_cell]
      rw [if_neg hcne, ← List.cons_append, ← hct, hbody, Option.map_some']
      refine congrArg _ (congrArg _ ?_)
      have hcast : (n : ℚ) = (k : ℚ) := by
        rw [hn, Int.cast_natAbs, abs_of_nonneg (le_of_not_lt hneg)]
      rw [hcast, hq']

theorem parse_date_date_chars (d : Date) (hy : d.year < 10000) (hm : d.month < 100)
    (hd : d.day < 100) : parse_date (date_chars d) = some d := by
  have hsplit : splitOnChar '-' (date_chars d)
      = [pad_chars 4 d.year, pad_chars 2 d.month, pad_chars 2 d.day] := by
    rw [date_chars, splitOnChar_append '-' _ _ (pad_chars_no_dash 4 d.year),
        splitOnChar_append '-' _ _ (pad_chars_no_dash 2 d.month),
        splitOnChar_no_sep '-' _ (pad_chars_no_dash 2 d.day)]
  simp only [parse_date, hsplit]
  rw [if_pos ⟨pad_chars_length 4 _ (lt_of_lt_of_le hy (by norm_num)),
              pad_chars_length 2 _ (lt_of_lt_of_le hm (by norm_num)),
              pad_chars_length 2 _ (lt_of_lt_of_le hd (by norm_num))⟩]
  rw [parse_nat_pad 4 _ (by norm_num), parse_nat_pad 2 _ (by norm_num),
      parse_nat_pad 2 _ (by norm_num)]

end CellRoundTrip

section TableRoundTrip

theorem mem_cell_body (a b : ℕ) (c : Char)
    (hc : c ∈ nat_chars a ++ '.' :: pad_chars 3 b) :
    is_digit_char c = true ∨ c = '-' ∨ c = '.' := by
  rcases List.mem_append.mp hc with h | h
  · exact Or.inl (pad_chars_digits 1 a c h)
  · rcases List.mem_cons.mp h with h' | h'
    · exact Or.inr (Or.inr h')
    · exact Or.inl (pad_chars_digits 3 b c h')

theorem mem_cell_chars (v : Option ℚ) (c : Char) (hc : c ∈ cell_chars v) :
    is_digit_char c = true ∨ c = '-' ∨ c = '.' := by
  cases v with
  | none => cases hc
  | some q =>
    simp only [cell_chars] at hc
    by_cases hneg : (q * 1000).num < 0
    · rw [if_pos hneg] at hc
      rcases List.mem_cons.mp hc with h | h
      · exact Or.inr (Or.inl h)
      · exact mem_cell_body _ _ c h
    · rw [if_neg hneg] at hc
      exact mem_cell_body _ _ c hc

theorem cell_chars_no_comma (v : Option ℚ) : ',' ∉ cell_chars v := by
  intro h
  rcases mem_cell_chars v ',' h with h' | h' | h'
  · exact (is_digit_char_ne _ h').1 rfl
  · exact absurd h' (by decide)
  · exact absurd h' (by decide)

theorem cell_chars_no_newline (v : Option ℚ) : '\n' ∉ cell_chars v := by
  intro h
  rcases mem_cell_chars v '\n' h with h' | h' | h'
  · exact (is_digit_char_ne _ h').2.1 rfl
  · exact absurd h' (by decide)
  · exact absurd h' (by decide)

theorem mem_date_chars (d : Date) (c : Char) (hc : c ∈ date_chars d) :
    is_digit_char c = true ∨ c = '-' := by
  simp only [date_chars, List.mem_append, List.mem_cons] at hc
  rcases hc with h | h | h | h | h
  · exact Or.inl (pad_chars_digits 4 d.year c h)
  · exact Or.inr h
  · exact Or.inl (pad_chars_digits 2 d.month c h)
  · exact Or.inr h
  · exact Or.inl (pad_chars_digits 2 d.day c h)

theorem date_chars_no_comma (d : Date) : ',' ∉ date_chars d := by
  intro h
  rcases mem_date_chars d ',' h with h' | h'
  · exact (is_digit_char_ne _ h').1 rfl
  · exact absurd h' (by decide)

theorem date_chars_no_newline (d : Date) : '\n' ∉ date_chars d := by
  intro h
  rcases mem_date_chars d '\n' h with h' | h'
  · exact (is_digit_char_ne _ h').2.1 rfl
  · exact absurd h' (by decide)

theorem mapOpt_cells (cells : List (Option ℚ)) (h : ∀ v ∈ cells, dec3 v) :
    mapOpt parse_cell (cells.map cell_chars) = some cells := by
  induction cells with
  | nil => rfl
  | cons v vs ih =>
    simp only [List.map_cons, mapOpt]
    rw [parse_cell_cell_chars v (h v (List.mem_cons_self _ _)),
        ih (fun x hx => h x (List.mem_cons_of_mem _ hx))]

/-- One exported data line re-parses to its row. -/
theorem parse_row_line (r : Row) (hwf : row_wf r) :
    parse_row (join_sep ',' (date_chars r.time :: r.cells.map cell_chars)) =
      some r := by
  obtain ⟨h1, h2, h3, h4⟩ := hwf
  have hmem : ∀ l ∈ date_chars r.time :: r.cells.map cell_chars, ',' ∉ l := by
    intro l hl
    rcases List.mem_cons.mp hl with hh | hh
    · subst hh; exact date_chars_no_comma r.time
    · obtain ⟨v, _, rfl⟩ := List.mem_map.mp hh
      exact cell_chars_no_comma v
  have hsplit := splitOnChar_join ',' _ (by simp) hmem
  simp only [parse_row, hsplit]
  rw [parse_date_date_chars r.time h1 h2 h3, mapOpt_cells r.cells h4]

theorem mapOpt_rows (rows : List Row) (h : ∀ r ∈ rows, row_wf r) :
    mapOpt parse_row
      (rows.map (fun r => join_sep ',' (date_chars r.time :: r.cells.map cell_chars)))
      = some rows := by
  induction rows with
  | nil => rfl
  | cons r rs ih =>
    simp only [List.map_cons, mapOpt]
    rw [parse_row_line r (h r (List.mem_cons_self _ _)),
        ih (fun x hx => h x (List.mem_cons_of_mem _ hx))]

theorem map_mk_data (ls : List String) : (ls.map String.data).map String.mk = ls := by
  induction ls with
  | nil => rfl
  | cons s ss ih =>
    cases s
    simp only [List.map_cons, ih]

end TableRoundTrip

/-- C8: exporting an Observation Table to the CSV download payload and
re-parsing that text yields the table back exactly — the loader's 3-decimal
rounding means the decimal rendering loses nothing. The hypotheses say the
table is one the loader can produce: printable column names, date fields
within their printed widths, and every value a 3-decimal rational. -/
theorem csv_round_trip (df : Table) (h : table_wf df) :
    parse_csv (to_csv df) = some df := by
  obtain ⟨hcols, hrows⟩ := h
  have hlines_nl : ∀ l ∈ (join_sep ',' ("Time".data :: df.valueCols.map String.data)) ::
      df.rows.map (fun r => join_sep ',' (date_chars r.time :: r.cells.map cell_chars)),
      '\n' ∉ l := by
    intro l hl
    rcases List.mem_cons.mp hl with hh | hh
    · subst hh
      intro hx
      rcases mem_join_sep ',' _ '\n' hx with h' | ⟨x, hx', hcx⟩
      · exact absurd h' (by decide)
      · rcases List.mem_cons.mp hx' with h'' | h''
        · subst h''; revert hcx; decide
        · obtain ⟨cname, hcn, rfl⟩ := List.mem_map.mp h''
          exact (hcols cname hcn).2 hcx
    · obtain ⟨r, _, rfl⟩ := List.mem_map.mp hh
      intro hx
      rcases mem_join_sep ',' _ '\n' hx with h' | ⟨x, hx', hcx⟩
      · exact absurd h' (by decide)
      · rcases List.mem_cons.mp hx' with h'' | h''
        · subst h''; exact date_chars_no_newline r.time hcx
        · obtain ⟨v, _, rfl⟩ := List.mem_map.mp h''
          exact cell_chars_no_newline v hcx
  have hsplit1 : splitOnChar '\n' (to_csv df) =
      ((join_sep ',' ("Time".data :: df.valueCols.map String.data)) ::
        df.rows.map (fun r => join_sep ',' (date_chars r.time :: r.cells.map cell_chars)))
        ++ [[]] := by
    simp only [to_csv]
    rw [← join_sep_concat_nil '\n' _ (by simp)]
    refine splitOnChar_join '\n' _ (by simp) ?_
    intro l hl
    rcases List.mem_append.mp hl with h' | h'
    · exact hlines_nl l h'
    · simp only [List.mem_singleton] at h'
      subst h'
      simp
  have hheader : splitOnChar ',' (join_sep ',' ("Time".data :: df.valueCols.map String.data))
      = "Time".data :: df.valueCols.map String.data := by
    refine splitOnChar_join ',' _ (by simp) ?_
    intro l hl
    rcases List.mem_cons.mp hl with hh | hh
    · subst hh; decide
    · obtain ⟨cname, hcn, rfl⟩ := List.mem_map.mp hh
      exact (hcols cname hcn).1
  simp only [parse_csv, hsplit1]
  rw [List.getLast?_concat]
  rw [if_pos rfl, List.dropLast_concat]
  simp only [hheader]
  rw [if_pos trivial, mapOpt_rows df.rows hrows, map_mk_data]

/-- C8 witness: a concrete two-column table with a whole value, a missing
value and a negative half, through export and re-parse. -/
theorem csv_round_trip_witness :
    parse_csv (to_csv
      ⟨["pi_1q", "pi_2q"],
       [⟨⟨1999, 3, 31⟩, [some 2, none]⟩,
        ⟨⟨1999, 6, 30⟩, [some (-1/2), some (3/2)]⟩]⟩) =
      some
      ⟨["pi_1q", "pi_2q"],
       [⟨⟨1999, 3, 31⟩, [some 2, none]⟩,
        ⟨⟨1999, 6, 30⟩, [some (-1/2), some (3/2)]⟩]⟩ := by
  refine csv_round_trip _ ⟨by decide, ?_⟩
  intro r hr
  rcases List.mem_cons.mp hr with h | h
  · subst h
    refine ⟨by norm_num, by norm_num, by norm_num, ?_⟩
    intro v hv
    rcases List.mem_cons.mp hv with h' | h'
    · subst h'
      show ((2 : ℚ) * 1000).den = 1
      norm_num
    · rcases List.mem_cons.mp h' with h'' | h''
      · subst h''; trivial
      · cases h''
  · rcases List.mem_cons.mp h with h' | h'
    · subst h'
      refine ⟨by norm_num, by norm_num, by norm_num, ?_⟩
      intro v hv
      rcases List.mem_cons.mp hv with h'' | h''
      · subst h''
        show ((-1/2 : ℚ) * 1000).den = 1
        norm_num
      · rcases List.mem_cons.mp h'' with h3 | h3
        · subst h3
          show ((3/2 : ℚ) * 1000).den = 1
          norm_num
        · cases h3
    · cases h'

end InflationApp
